import Mathlib

/-!
Verification of the recursive QAOA (RQAOA) reduction engine of
orquestra-vqa (`src/orquestra/vqa/opt/recursive_qaoa.py`).

The engine works on Ising-type Hamiltonians: sums of weighted products of
Pauli-Z factors.  The term algebra (`PauliTerm` / `PauliSum`) lives in the
external orquestra-quantum package; it is modelled here from the spec
(sections 3 and 4.1): a term is a set of variable indices plus a rational
coefficient, sums are kept merged by variable set, and the variable count
of a sum is the largest variable index appearing plus one.

All functions of `recursive_qaoa.py` that the claims touch are embedded:
`_get_new_qubit_indice`, `_update_qubit_map`, `_create_reduced_hamiltonian`,
`_find_term_with_strongest_correlation`,
`_map_reduced_solutions_to_original_solutions`, the `RecursiveQAOA.__init__`
validity check and the level structure of `_recursive_minimize`.
-/

/-- Modelled from the spec: a term of the orquestra-quantum term algebra
(spec section 4.1): an unordered set of variable indices (each carrying a
Z factor; kept as a sorted duplicate-free list) together with a scalar
coefficient.  Two terms are equal when variable set and coefficient agree. -/
structure PauliTerm where
  qubits : List Nat
  coefficient : ℚ
deriving DecidableEq, Repr

/-- Modelled from the spec: `is_constant(term)` is true iff the term's
variable set is empty (spec section 4.1). -/
def PauliTerm.is_constant (t : PauliTerm) : Bool := t.qubits.isEmpty

/-- Insertion of a qubit index into a sorted list of qubit indices. -/
def insertSorted (q : Nat) : List Nat → List Nat
  | [] => [q]
  | x :: xs => if q ≤ x then q :: x :: xs else x :: insertSorted q xs

/-- Sorting of a list of qubit indices (the `sorted(...)` calls of the
source, and the canonical order of a term's operation dictionary). -/
def sortQubits (l : List Nat) : List Nat := l.foldr insertSorted []

/-- Removal of adjacent duplicates in a sorted list. -/
def dedupAdj : List Nat → List Nat
  | [] => []
  | [x] => [x]
  | x :: y :: rest => if x = y then dedupAdj (y :: rest) else x :: dedupAdj (y :: rest)

/-- Modelled from the spec: construction of a term from a list of Z factor
indices (the `PauliTerm("Z.."*"..", c)` constructor): the operation
dictionary is keyed by qubit index, so the index list is normalised to a
sorted duplicate-free set; a term built from the empty product is the
constant term (spec section 4.1, `identity(coefficient)`). -/
def mkTerm (qs : List Nat) (c : ℚ) : PauliTerm := ⟨dedupAdj (sortQubits qs), c⟩

/-- Modelled from the spec: `PauliSum` addition of one term
(`reduced_hamiltonian += PauliTerm(...)`): merged into the existing term
with the identical variable set, coefficients adding, otherwise appended
(spec sections 3 and 4.1: sums are always kept merged). -/
def addTerm : List PauliTerm → PauliTerm → List PauliTerm
  | [], t => [t]
  | u :: rest, t =>
      if u.qubits = t.qubits then ⟨u.qubits, u.coefficient + t.coefficient⟩ :: rest
      else u :: addTerm rest t

/-- Largest variable index of a term plus one (0 for the constant term). -/
def PauliTerm.maxIndexSucc (t : PauliTerm) : Nat :=
  t.qubits.foldr (fun q m => max (q + 1) m) 0

/-- Modelled from the spec: the variable count `n_qubits` of a term sum is
the maximum variable index appearing plus one (spec section 3 data-model
invariant); 0 for an empty sum. -/
def n_qubits (hamiltonian : List PauliTerm) : Nat :=
  hamiltonian.foldr (fun t m => max t.maxIndexSucc m) 0

/-- Sign of an expectation value as an integer, `int(np.sign(e))`. -/
def isign (e : ℚ) : Int := if 0 < e then 1 else if e < 0 then -1 else 0

/-- Sign of an expectation value as a scalar, `np.sign(e)` as used on
coefficients. -/
def rsign (e : ℚ) : ℚ := if 0 < e then 1 else if e < 0 then -1 else 0

/-- Embeds `_get_new_qubit_indice` (recursive_qaoa.py lines 310-329): the
sorted qubit pair of the selected term gives the qubit to get rid of
(`qubits[1]`) and its replacement (`qubits[0]`); indices above the removed
one move down by one, the removed one is replaced, others are unchanged. -/
def get_new_qubit_indice (old_indice : Nat) (operator_with_largest_expval : PauliTerm) : Nat :=
  let qubits := sortQubits operator_with_largest_expval.qubits
  let qubit_to_get_rid_of := qubits.getD 1 0
  let qubit_itll_be_replaced_with := qubits.getD 0 0
  if old_indice > qubit_to_get_rid_of then old_indice - 1
  else if old_indice = qubit_to_get_rid_of then qubit_itll_be_replaced_with
  else old_indice

/-- The `sorted(term.qubits)[-1]` idiom of the source: the largest qubit of
a term (the one to get rid of). -/
def largest_qubit (t : PauliTerm) : Nat :=
  let s := sortQubits t.qubits
  s.getD (s.length - 1) 0

/-- Embeds `_update_qubit_map` (recursive_qaoa.py lines 263-307).  The
qubit map is the list of `(current index, sign)` pairs, position = original
qubit.  The source copies the map and then rewrites each entry `i` from
that entry's own pre-update value: the sign is multiplied by the sign of
the expectation value when the entry's current index is the qubit being
removed, and the index is renumbered with `_get_new_qubit_indice`. -/
def update_qubit_map (qubit_map : List (Nat × Int)) (term_with_largest_expval : PauliTerm)
    (largest_expval : ℚ) : List (Nat × Int) :=
  let qubit_to_get_rid_of := largest_qubit term_with_largest_expval
  qubit_map.map (fun p =>
    let s := if p.1 = qubit_to_get_rid_of then p.2 * isign largest_expval else p.2
    (get_new_qubit_indice p.1 term_with_largest_expval, s))

/-- One loop body of `_create_reduced_hamiltonian` (lines 356-372): each
qubit index of the term is renumbered, and the coefficient is multiplied by
the sign of the expectation value each time the removed qubit is met; the
rewritten factor list and coefficient build a new term. -/
def reduce_term (term : PauliTerm) (term_with_largest_expval : PauliTerm)
    (largest_expval : ℚ) : PauliTerm :=
  let qubit_to_get_rid_of := largest_qubit term_with_largest_expval
  let folded := term.qubits.foldl
    (fun (acc : List Nat × ℚ) qubit_indice =>
      (acc.1 ++ [get_new_qubit_indice qubit_indice term_with_largest_expval],
       if qubit_indice = qubit_to_get_rid_of then acc.2 * rsign largest_expval else acc.2))
    ([], term.coefficient)
  mkTerm folded.1 folded.2

/-- Embeds `_create_reduced_hamiltonian` (recursive_qaoa.py lines 332-374):
every term of the Hamiltonian other than the selected term (compared by
value) is rewritten with `reduce_term` and added to a fresh sum. -/
def create_reduced_hamiltonian (hamiltonian : List PauliTerm)
    (term_with_largest_expval : PauliTerm) (largest_expval : ℚ) : List PauliTerm :=
  hamiltonian.foldl
    (fun reduced term =>
      if term ≠ term_with_largest_expval then
        addTerm reduced (reduce_term term term_with_largest_expval largest_expval)
      else reduced)
    []

/-- Embeds `_find_term_with_strongest_correlation` (recursive_qaoa.py lines
221-260).  The per-term expectation value (ansatz, optimal parameters and
cost-function factory) is abstracted into `evalTerm`.  The source starts
from `(hamiltonian.terms[0], 0.0)` (an index error, hence `none`, on an
empty Hamiltonian), skips constant terms, and keeps the term whose absolute
expectation value strictly exceeds the best seen so far.  `scorer_step` is
the loop body (lines 248-258). -/
def scorer_step (evalTerm : PauliTerm → ℚ) (acc : PauliTerm × ℚ) (term : PauliTerm) :
    PauliTerm × ℚ :=
  if term.is_constant = false then
    let expval_of_term := evalTerm term
    if |expval_of_term| > |acc.2| then (term, expval_of_term) else acc
  else acc

/-- Embeds the body of `_find_term_with_strongest_correlation` with the loop
expressed as a fold of `scorer_step` over the term list, starting from the
source's initial pair `(hamiltonian.terms[0], 0.0)`; an empty Hamiltonian is
an index error, hence `none`. -/
def find_term_with_strongest_correlation (hamiltonian : List PauliTerm)
    (evalTerm : PauliTerm → ℚ) : Option (PauliTerm × ℚ) :=
  match hamiltonian with
  | [] => none
  | t0 :: _ => some (hamiltonian.foldl (scorer_step evalTerm) (t0, (0 : ℚ)))

/-- The sign flip of `_map_reduced_solutions_to_original_solutions` (lines
398-403): if the sign is -1 the bit is flipped. -/
def flip_if_negative (sign : Int) (this_answer : Nat) : Nat :=
  if sign = -1 then (if this_answer = 0 then 1 else 0) else this_answer

/-- Embeds `_map_reduced_solutions_to_original_solutions` (recursive_qaoa.py
lines 377-408): for each reduced solution, each original variable (in map
order) reads the bit at its current index and flips it when its sign is -1. -/
def map_reduced_solutions_to_original_solutions (reduced_solutions : List (List Nat))
    (qubit_map : List (Nat × Int)) : List (List Nat) :=
  reduced_solutions.map (fun reduced_solution =>
    qubit_map.map (fun p => flip_if_negative p.2 (reduced_solution.getD p.1 0)))

/-- Embeds the validation of `RecursiveQAOA.__init__` (recursive_qaoa.py
lines 60-65): construction raises a `ValueError` iff `n_c >= n_qubits` or
`n_c <= 0`. -/
def recursiveQAOA_init (n_c : Int) (cost_hamiltonian : List PauliTerm) : Except String Int :=
  let nq : Int := n_qubits cost_hamiltonian
  if n_c ≥ nq ∨ n_c ≤ 0 then
    Except.error "n_c needs to be a value less than number of qubits and greater than 0."
  else Except.ok n_c

/-- The level structure of `RecursiveQAOA._recursive_minimize`
(recursive_qaoa.py lines 109-210) given the asserted per-level invariant
(lines 162-170) that the reduced Hamiltonian has exactly one variable fewer:
a level always runs once, and recurses on `n - 1` variables while the
reduced count `n - 1` is still above the threshold `n_c`. -/
def recursion_levels (n_c : Nat) (n : Nat) : Nat :=
  if h : n_c < n - 1 then 1 + recursion_levels n_c (n - 1) else 1
termination_by n
decreasing_by omega

/-- The four-variable Hamiltonian `5*Z0Z1 + 2*Z0Z3 + 0.5*Z1Z2 + 0.6*Z2Z3`
of the spec's concrete scenario. -/
def exampleHamiltonian : List PauliTerm :=
  [⟨[0, 1], 5⟩, ⟨[0, 3], 2⟩, ⟨[1, 2], 1/2⟩, ⟨[2, 3], 3/5⟩]

/-- A four-variable Hamiltonian holding the single term `Z2Z3`: its declared
variable count (max index + 1) is 4 although variables 0 and 1 appear in no
term. -/
def cexHamiltonian : List PauliTerm := [⟨[2, 3], 1⟩]

/-- The example Hamiltonian with a constant term 3 prepended. -/
def constHamiltonian : List PauliTerm := ⟨[], 3⟩ :: exampleHamiltonian

/-- A heap of mutable cells addressed by natural numbers, for stating the
frame properties of the per-level state transformers: Python's dict-of-lists
qubit map holds references to mutable two-element lists, and a Hamiltonian
holds references to term objects. -/
structure Heap (α : Type) where
  cells : Nat → α
  next : Nat

/-- Writing a cell in place. -/
def Heap.write (h : Heap α) (a : Nat) (v : α) : Heap α :=
  ⟨fun x => if x = a then v else h.cells x, h.next⟩

/-- Allocating a fresh cell (a fresh Python object). -/
def Heap.alloc (h : Heap α) (v : α) : Heap α × Nat :=
  (⟨fun x => if x = h.next then v else h.cells x, h.next + 1⟩, h.next)

/-- The `deepcopy(qubit_map)` of `_update_qubit_map` (line 294): every inner
`[index, sign]` list is copied into a freshly allocated cell. -/
def deepcopy_cells (h : Heap (Nat × Int)) : List Nat → Heap (Nat × Int) × List Nat
  | [] => (h, [])
  | a :: rest =>
    let p := h.alloc (h.cells a)
    let q := deepcopy_cells p.1 rest
    (q.1, p.2 :: q.2)

/-- The mutation loop of `_update_qubit_map` (lines 300-305), acting on the
cells of the copied map: each entry is read, its sign conditionally updated,
and its index renumbered, writing the entry's own cell in place. -/
def update_qubit_map_loop (t : PauliTerm) (e : ℚ) :
    Heap (Nat × Int) → List Nat → Heap (Nat × Int)
  | h, [] => h
  | h, a :: rest =>
    let cell := h.cells a
    let s := if cell.1 = largest_qubit t then cell.2 * isign e else cell.2
    update_qubit_map_loop t e (h.write a (get_new_qubit_indice cell.1 t, s)) rest

/-- Heap-level embedding of `_update_qubit_map` (lines 263-307): deep-copy
the input map, then run the mutation loop on the copied cells only, and
return the new map (the list of copied addresses). -/
def update_qubit_map_onheap (h : Heap (Nat × Int)) (qubit_map : List Nat)
    (t : PauliTerm) (e : ℚ) : Heap (Nat × Int) × List Nat :=
  let c := deepcopy_cells h qubit_map
  (update_qubit_map_loop t e c.1 c.2, c.2)

/-- Heap-level embedding of `reduced_hamiltonian += PauliTerm(...)` (line
372): merging with an existing entry of the same variable set allocates a
fresh merged term object replacing that entry's address, otherwise the new
term is allocated and appended; the input term cells are never written. -/
def sum_add_onheap (h : Heap PauliTerm) : List Nat → PauliTerm → Heap PauliTerm × List Nat
  | [], t =>
    let p := h.alloc t
    (p.1, [p.2])
  | b :: rest, t =>
    if (h.cells b).qubits = t.qubits then
      let p := h.alloc ⟨(h.cells b).qubits, (h.cells b).coefficient + t.coefficient⟩
      (p.1, p.2 :: rest)
    else
      let q := sum_add_onheap h rest t
      (q.1, b :: q.2)

/-- Heap-level embedding of `_create_reduced_hamiltonian` (lines 332-374):
the input Hamiltonian is a list of addresses of term objects; each term
other than the selected one (read once, as Python passes the object) is
rewritten into a freshly built term and added to the fresh output sum. -/
def create_reduced_onheap (h : Heap PauliTerm) (ham : List Nat) (taddr : Nat)
    (e : ℚ) : Heap PauliTerm × List Nat :=
  let tsel := h.cells taddr
  ham.foldl
    (fun acc a =>
      let term := acc.1.cells a
      if term ≠ tsel then sum_add_onheap acc.1 acc.2 (reduce_term term tsel e) else acc)
    (h, [])

/-- C1: reducing the Hamiltonian `5*Z0Z1 + 2*Z0Z3 + 0.5*Z1Z2 + 0.6*Z2Z3` by
the selected term `5*Z0Z1` with signed expectation value +10 yields exactly
`2*Z0Z2 + 0.5*Z0Z1 + 0.6*Z1Z2`, and with signed expectation value -10 the
same Hamiltonian with the middle coefficient flipped to -0.5. -/
theorem claim_C1_concrete_reduction :
    create_reduced_hamiltonian exampleHamiltonian ⟨[0, 1], 5⟩ 10 =
      [⟨[0, 2], 2⟩, ⟨[0, 1], 1/2⟩, ⟨[1, 2], 3/5⟩] ∧
    create_reduced_hamiltonian exampleHamiltonian ⟨[0, 1], 5⟩ (-10) =
      [⟨[0, 2], 2⟩, ⟨[0, 1], -(1/2)⟩, ⟨[1, 2], 3/5⟩] := by
  constructor <;>
    norm_num [create_reduced_hamiltonian, exampleHamiltonian, addTerm, reduce_term,
      mkTerm, sortQubits, insertSorted, dedupAdj, get_new_qubit_indice, largest_qubit,
      rsign]

theorem sortQubits_pair (a b : Nat) (h : a ≤ b) : sortQubits [a, b] = [a, b] := by
  simp [sortQubits, insertSorted, h]

theorem update_qubit_map_eq_map (qubit_map : List (Nat × Int)) (t : PauliTerm) (e : ℚ)
    (a b : Nat) (ht : t.qubits = [a, b]) (hab : a < b) :
    update_qubit_map qubit_map t e = qubit_map.map (fun p =>
      (if b < p.1 then p.1 - 1 else if p.1 = b then a else p.1,
       if p.1 = b then p.2 * isign e else p.2)) := by
  unfold update_qubit_map largest_qubit get_new_qubit_indice
  rw [ht, sortQubits_pair a b (le_of_lt hab)]
  simp

/-- C2: for every variable map, two-variable selected term (eliminated = its
higher index `b`, surviving = its lower index `a`) and nonzero signed
expectation value `e`, the updated map assigns to each original variable: its
sign multiplied by sign(e) exactly when its pre-update index equals the
eliminated one, and as new index its pre-update index minus 1 when above the
eliminated one, the surviving one when equal, and otherwise unchanged — each
entry computed from the pre-update map only. -/
theorem claim_C2_update_qubit_map_pointwise (qubit_map : List (Nat × Int))
    (t : PauliTerm) (e : ℚ) (a b : Nat)
    (ht : t.qubits = [a, b]) (hab : a < b) (he : e ≠ 0) :
    (update_qubit_map qubit_map t e).length = qubit_map.length ∧
    ∀ (i : Nat) (p : Nat × Int), qubit_map[i]? = some p →
      (update_qubit_map qubit_map t e)[i]? =
        some (if b < p.1 then p.1 - 1 else if p.1 = b then a else p.1,
              if p.1 = b then p.2 * isign e else p.2) := by
  rw [update_qubit_map_eq_map qubit_map t e a b ht hab]
  refine ⟨by simp, ?_⟩
  intro i p hp
  simp [List.getElem?_map, hp]

/-- Witness for C2 at the default four-variable map, term `5*Z0Z1` and
expectation value 10. -/
theorem claim_C2_update_qubit_map_pointwise_witness :
    (update_qubit_map [(0, 1), (1, 1), (2, 1), (3, 1)] ⟨[0, 1], 5⟩ 10).length =
      ([(0, 1), (1, 1), (2, 1), (3, 1)] : List (Nat × Int)).length ∧
    ∀ (i : Nat) (p : Nat × Int),
      ([(0, 1), (1, 1), (2, 1), (3, 1)] : List (Nat × Int))[i]? = some p →
      (update_qubit_map [(0, 1), (1, 1), (2, 1), (3, 1)] ⟨[0, 1], 5⟩ 10)[i]? =
        some (if 1 < p.1 then p.1 - 1 else if p.1 = 1 then 0 else p.1,
              if p.1 = 1 then p.2 * isign 10 else p.2) :=
  claim_C2_update_qubit_map_pointwise _ _ _ 0 1 rfl (by decide) (by norm_num)

/-- C9: construction of the recursive optimizer fails exactly when the
threshold `n_c` is not strictly between 0 and the Hamiltonian's variable
count. -/
theorem claim_C9_init_validation (n_c : Int) (cost_hamiltonian : List PauliTerm) :
    (∃ msg, recursiveQAOA_init n_c cost_hamiltonian = Except.error msg) ↔
      (n_c ≤ 0 ∨ n_c ≥ (n_qubits cost_hamiltonian : Int)) := by
  unfold recursiveQAOA_init
  by_cases h : n_c ≥ (n_qubits cost_hamiltonian : Int) ∨ n_c ≤ 0
  · simp only [h, if_pos]
    exact ⟨fun _ => h.symm, fun _ => ⟨_, rfl⟩⟩
  · simp only [h, if_neg, not_false_iff]
    constructor
    · rintro ⟨msg, hmsg⟩
      cases hmsg
    · intro hor
      exact absurd hor.symm h

/-- C4: updating a variable map whose surviving indices are in range and
cover `0..n-1` with a valid two-variable term (both indices below `n`,
eliminated = higher) and a nonzero expectation value yields a map whose
surviving indices are in range and cover `0..n-2`: the renumbering stays
contiguous with no gaps. -/
theorem claim_C4_surviving_indices_contiguous (qubit_map : List (Nat × Int))
    (t : PauliTerm) (e : ℚ) (n a b : Nat)
    (ht : t.qubits = [a, b]) (hab : a < b) (hbn : b < n) (he : e ≠ 0)
    (hrange : ∀ p ∈ qubit_map, p.1 < n)
    (hcover : ∀ k, k < n → ∃ p ∈ qubit_map, p.1 = k) :
    (∀ p ∈ update_qubit_map qubit_map t e, p.1 < n - 1) ∧
    (∀ k, k < n - 1 → ∃ p ∈ update_qubit_map qubit_map t e, p.1 = k) := by
  rw [update_qubit_map_eq_map qubit_map t e a b ht hab]
  constructor
  · intro p' hp'
    rcases List.mem_map.1 hp' with ⟨p, hp, rfl⟩
    have hpn := hrange p hp
    dsimp only
    split_ifs <;> omega
  · intro k hk
    by_cases hkb : k < b
    · rcases hcover k (by omega) with ⟨p, hp, hpk⟩
      refine ⟨_, List.mem_map_of_mem _ hp, ?_⟩
      dsimp only
      split_ifs <;> omega
    · rcases hcover (k + 1) (by omega) with ⟨p, hp, hpk⟩
      refine ⟨_, List.mem_map_of_mem _ hp, ?_⟩
      dsimp only
      split_ifs <;> omega

/-- Witness for C4 at the default four-variable map, term `5*Z0Z1` and
expectation value 10. -/
theorem claim_C4_surviving_indices_contiguous_witness :
    (∀ p ∈ update_qubit_map [(0, 1), (1, 1), (2, 1), (3, 1)] ⟨[0, 1], 5⟩ 10,
      p.1 < 4 - 1) ∧
    (∀ k, k < 4 - 1 →
      ∃ p ∈ update_qubit_map [(0, 1), (1, 1), (2, 1), (3, 1)] ⟨[0, 1], 5⟩ 10,
        p.1 = k) :=
  claim_C4_surviving_indices_contiguous _ _ _ 4 0 1 rfl (by decide) (by decide)
    (by norm_num) (by decide) (by decide)

/-- C3 counterexample: the four-variable Hamiltonian holding the single term
`Z2Z3` (declared variable count 4) refutes the claim that every recursion
level reduces the variable count by exactly 1: the scorer selects `Z2Z3`
(for any evaluation, here constantly 1), and reducing by it empties the
Hamiltonian, so the variable count drops from 4 to 0 although 4 is not the
degenerate count 2; the controller's assert fails and no `n - n_c` level
recursion takes place. -/
theorem claim_C3_counterexample :
    n_qubits cexHamiltonian = 4 ∧
    find_term_with_strongest_correlation cexHamiltonian (fun _ => 1) =
      some (⟨[2, 3], 1⟩, 1) ∧
    n_qubits (create_reduced_hamiltonian cexHamiltonian ⟨[2, 3], 1⟩ 1) = 0 ∧
    ¬(n_qubits (create_reduced_hamiltonian cexHamiltonian ⟨[2, 3], 1⟩ 1) =
        n_qubits cexHamiltonian - 1) := by
  refine ⟨by decide, ?_, ?_, ?_⟩
  · norm_num [find_term_with_strongest_correlation, cexHamiltonian, scorer_step,
      PauliTerm.is_constant]
  · norm_num [create_reduced_hamiltonian, cexHamiltonian, n_qubits]
  · norm_num [create_reduced_hamiltonian, cexHamiltonian, n_qubits,
      PauliTerm.maxIndexSucc]

/-- C3 amended: provided every recursion level's reduced Hamiltonian has
exactly one variable fewer (the invariant the controller asserts at lines
162-170), the recursion started on `n` variables with a valid threshold
`0 < n_c < n` terminates after exactly `n - n_c` levels. -/
theorem claim_C3_amended_level_count :
    ∀ n n_c : Nat, 0 < n_c → n_c < n → recursion_levels n_c n = n - n_c := by
  intro n
  induction n using Nat.strong_induction_on with
  | _ n ih =>
    intro n_c h0 h1
    unfold recursion_levels
    split_ifs with h
    · have hrec := ih (n - 1) (by omega) n_c h0 h
      omega
    · omega

/-- Witness for the amended C3 at `n = 4`, `n_c = 1`: three levels. -/
theorem claim_C3_amended_level_count_witness : recursion_levels 1 4 = 4 - 1 :=
  claim_C3_amended_level_count 4 1 (by decide) (by decide)

/-- C6 counterexample: invoked on the Hamiltonian holding only the constant
term 3 (zero non-constant terms), the scorer does not fail: it returns the
constant term itself, paired with expectation value 0. -/
theorem claim_C6_counterexample :
    find_term_with_strongest_correlation [⟨[], 3⟩] (fun _ => 0) =
      some (⟨[], 3⟩, 0) ∧
    (⟨[], (3 : ℚ)⟩ : PauliTerm).is_constant = true := by
  exact ⟨rfl, rfl⟩

theorem scorer_fold_all_constant (f : PauliTerm → ℚ) :
    ∀ (L : List PauliTerm), (∀ t ∈ L, t.is_constant = true) →
    ∀ acc : PauliTerm × ℚ, L.foldl (scorer_step f) acc = acc := by
  intro L
  induction L with
  | nil => intro _ acc; rfl
  | cons x rest ih =>
    intro h acc
    have hx : x.is_constant = true := h x (List.mem_cons_self _ _)
    rw [List.foldl_cons]
    have hstep : scorer_step f acc x = acc := by
      simp [scorer_step, hx]
    rw [hstep]
    exact ih (fun t ht => h t (List.mem_cons_of_mem _ ht)) acc

/-- C6 amended: invoked on a Hamiltonian with zero non-constant terms, the
scorer raises only in the no-terms-at-all case (an index error on
`terms[0]`); when the Hamiltonian holds constant terms only, it returns the
first term — a constant term — with expectation value 0.0, instead of
failing with an InvalidState error. -/
theorem claim_C6_amended_all_constant (hamiltonian : List PauliTerm)
    (f : PauliTerm → ℚ) (h : ∀ t ∈ hamiltonian, t.is_constant = true) :
    find_term_with_strongest_correlation hamiltonian f =
      hamiltonian.head?.map (fun t0 => (t0, 0)) := by
  cases hamiltonian with
  | nil => rfl
  | cons t0 rest =>
    show some ((t0 :: rest).foldl (scorer_step f) (t0, 0)) =
      ((t0 :: rest).head?.map (fun t0 => (t0, 0)))
    rw [scorer_fold_all_constant f (t0 :: rest) h (t0, 0)]
    rfl

/-- Witness for the amended C6 at a Hamiltonian holding only the constant
term 5: the scorer returns that term with value 0. -/
theorem claim_C6_amended_all_constant_witness :
    find_term_with_strongest_correlation [⟨[], 5⟩] (fun _ => 7) =
      ([⟨[], 5⟩] : List PauliTerm).head?.map (fun t0 => (t0, 0)) :=
  claim_C6_amended_all_constant [⟨[], 5⟩] (fun _ => 7)
    (fun t ht => by rcases List.mem_singleton.1 ht with rfl; rfl)

theorem insertSorted_ne_nil (q : Nat) (l : List Nat) : insertSorted q l ≠ [] := by
  cases l with
  | nil => simp [insertSorted]
  | cons x xs =>
    simp only [insertSorted]
    split_ifs <;> simp

theorem sortQubits_ne_nil (l : List Nat) (h : l ≠ []) : sortQubits l ≠ [] := by
  cases l with
  | nil => exact absurd rfl h
  | cons x xs => exact insertSorted_ne_nil x (sortQubits xs)

theorem dedupAdj_ne_nil : ∀ l : List Nat, l ≠ [] → dedupAdj l ≠ [] := by
  intro l
  induction l with
  | nil => intro h; exact absurd rfl h
  | cons x xs ih =>
    intro _
    cases xs with
    | nil => simp [dedupAdj]
    | cons y ys =>
      simp only [dedupAdj]
      split_ifs
      · exact ih (by simp)
      · simp

theorem reduce_fold_fst (t : PauliTerm) (e : ℚ) :
    ∀ (l : List Nat) (acc : List Nat × ℚ),
      (List.foldl (fun acc qubit_indice =>
          (acc.1 ++ [get_new_qubit_indice qubit_indice t],
           if qubit_indice = largest_qubit t then acc.2 * rsign e else acc.2)) acc l).1 =
        acc.1 ++ l.map (fun q => get_new_qubit_indice q t) := by
  intro l
  induction l with
  | nil => intro acc; simp
  | cons x xs ih => intro acc; simp [ih]

theorem reduce_term_qubits (u t : PauliTerm) (e : ℚ) :
    (reduce_term u t e).qubits =
      dedupAdj (sortQubits (u.qubits.map (fun q => get_new_qubit_indice q t))) := by
  simp only [reduce_term, mkTerm, reduce_fold_fst, List.nil_append]

theorem reduce_term_ne_const (u t : PauliTerm) (e : ℚ) (h : u.qubits ≠ []) :
    (reduce_term u t e).qubits ≠ [] := by
  rw [reduce_term_qubits]
  apply dedupAdj_ne_nil
  apply sortQubits_ne_nil
  simpa using h

theorem reduce_term_const (c : ℚ) (t : PauliTerm) (e : ℚ) :
    reduce_term ⟨[], c⟩ t e = ⟨[], c⟩ := rfl

theorem mem_addTerm_self (s : List PauliTerm) (v : PauliTerm)
    (h : ∀ u ∈ s, u.qubits ≠ v.qubits) : v ∈ addTerm s v := by
  induction s with
  | nil => simp [addTerm]
  | cons u rest ih =>
    simp only [addTerm]
    split_ifs with hq
    · exact absurd hq (h u (List.mem_cons_self _ _))
    · exact List.mem_cons_of_mem u (ih (fun w hw => h w (List.mem_cons_of_mem _ hw)))

theorem mem_addTerm_of_ne (s : List PauliTerm) (v w : PauliTerm)
    (hw : w ∈ s) (hne : w.qubits ≠ v.qubits) : w ∈ addTerm s v := by
  induction s with
  | nil => cases hw
  | cons u rest ih =>
    simp only [addTerm]
    split_ifs with hq
    · rcases List.mem_cons.1 hw with rfl | hw'
      · exact absurd hq hne
      · exact List.mem_cons_of_mem _ hw'
    · rcases List.mem_cons.1 hw with rfl | hw'
      · exact List.mem_cons_self _ _
      · exact List.mem_cons_of_mem _ (ih hw')

theorem addTerm_qubits_pred (P : List Nat → Prop) (v : PauliTerm) :
    ∀ s : List PauliTerm, (∀ u ∈ s, P u.qubits) → P v.qubits →
      ∀ u ∈ addTerm s v, P u.qubits := by
  intro s
  induction s with
  | nil =>
    intro _ hv u hu
    simp only [addTerm, List.mem_singleton] at hu
    subst hu
    exact hv
  | cons x rest ih =>
    intro hs hv u hu
    simp only [addTerm] at hu
    split_ifs at hu with hq
    · rcases List.mem_cons.1 hu with rfl | hu'
      · exact hs x (List.mem_cons_self _ _)
      · exact hs u (List.mem_cons_of_mem _ hu')
    · rcases List.mem_cons.1 hu with rfl | hu'
      · exact hs u (List.mem_cons_self _ _)
      · exact ih (fun w hw => hs w (List.mem_cons_of_mem _ hw)) hv u hu'

theorem reduced_fold_no_const (tsel : PauliTerm) (e : ℚ) :
    ∀ (L : List PauliTerm), (∀ u ∈ L, u.qubits ≠ []) →
    ∀ acc : List PauliTerm, (∀ u ∈ acc, u.qubits ≠ []) →
    ∀ u ∈ List.foldl (fun reduced term =>
        if term ≠ tsel then addTerm reduced (reduce_term term tsel e) else reduced) acc L,
      u.qubits ≠ [] := by
  intro L
  induction L with
  | nil => intro _ acc hacc; simpa using hacc
  | cons x xs ih =>
    intro hL acc hacc
    rw [List.foldl_cons]
    refine ih (fun u hu => hL u (List.mem_cons_of_mem _ hu)) _ ?_
    split_ifs with hx
    · exact addTerm_qubits_pred (fun qs => qs ≠ []) _ acc hacc
        (reduce_term_ne_const x tsel e (hL x (List.mem_cons_self _ _)))
    · exact hacc

theorem reduced_fold_mem (tsel : PauliTerm) (e c : ℚ) :
    ∀ (L : List PauliTerm), (∀ u ∈ L, u.qubits ≠ []) →
    ∀ acc : List PauliTerm, (⟨[], c⟩ : PauliTerm) ∈ acc →
    (⟨[], c⟩ : PauliTerm) ∈ List.foldl (fun reduced term =>
        if term ≠ tsel then addTerm reduced (reduce_term term tsel e) else reduced) acc L := by
  intro L
  induction L with
  | nil => intro _ acc hacc; simpa using hacc
  | cons x xs ih =>
    intro hL acc hacc
    rw [List.foldl_cons]
    refine ih (fun u hu => hL u (List.mem_cons_of_mem _ hu)) _ ?_
    split_ifs with hx
    · refine mem_addTerm_of_ne acc _ _ hacc ?_
      intro hq
      exact reduce_term_ne_const x tsel e (hL x (List.mem_cons_self _ _)) hq.symm
    · exact hacc

/-- C5 counterexample: with the constant term 3 prepended to the example
Hamiltonian, reducing by `5*Z0Z1` with expectation value +10 carries the
constant term through the rewriting pass: it appears unchanged in the
reduced Hamiltonian instead of being dropped. -/
theorem claim_C5_counterexample :
    (⟨[], (3 : ℚ)⟩ : PauliTerm) ∈ constHamiltonian ∧
    create_reduced_hamiltonian constHamiltonian ⟨[0, 1], 5⟩ 10 =
      [⟨[], 3⟩, ⟨[0, 2], 2⟩, ⟨[0, 1], 1/2⟩, ⟨[1, 2], 3/5⟩] ∧
    (⟨[], (3 : ℚ)⟩ : PauliTerm) ∈
      create_reduced_hamiltonian constHamiltonian ⟨[0, 1], 5⟩ 10 := by
  have heq : create_reduced_hamiltonian constHamiltonian ⟨[0, 1], 5⟩ 10 =
      [⟨[], 3⟩, ⟨[0, 2], 2⟩, ⟨[0, 1], 1/2⟩, ⟨[1, 2], 3/5⟩] := by
    norm_num [create_reduced_hamiltonian, constHamiltonian, exampleHamiltonian, addTerm,
      reduce_term, mkTerm, sortQubits, insertSorted, dedupAdj, get_new_qubit_indice,
      largest_qubit, rsign]
    decide
  refine ⟨List.mem_cons_self _ _, heq, ?_⟩
  rw [heq]
  exact List.mem_cons_self _ _

/-- C5 amended: a constant term present in the input Hamiltonian is not
dropped: the rewriting pass of the reducer carries it through unchanged
(its coefficient is never sign-flipped, it has no variables to renumber, it
is never the selected two-variable term), and it appears in the reduced
Hamiltonian.  Stated for a Hamiltonian holding exactly one constant term,
as the merged-sum data model guarantees. -/
theorem claim_C5_amended_constant_kept (H1 H2 : List PauliTerm) (t : PauliTerm)
    (e c : ℚ) (h1 : ∀ u ∈ H1, u.qubits ≠ []) (h2 : ∀ u ∈ H2, u.qubits ≠ [])
    (hsel : t.qubits ≠ []) :
    (⟨[], c⟩ : PauliTerm) ∈ create_reduced_hamiltonian (H1 ++ ⟨[], c⟩ :: H2) t e := by
  unfold create_reduced_hamiltonian
  rw [List.foldl_append, List.foldl_cons]
  have hne : (⟨[], c⟩ : PauliTerm) ≠ t := by
    intro h
    apply hsel
    rw [← h]
  have hacc1 := reduced_fold_no_const t e H1 h1 [] (by simp)
  refine reduced_fold_mem t e c H2 h2 _ ?_
  rw [if_pos hne, reduce_term_const]
  exact mem_addTerm_self _ _ (fun u hu => hacc1 u hu)

/-- Witness for the amended C5: the constant term 3 prepended to the example
Hamiltonian survives the reduction by `5*Z0Z1` at expectation value 10. -/
theorem claim_C5_amended_constant_kept_witness :
    (⟨[], (3 : ℚ)⟩ : PauliTerm) ∈
      create_reduced_hamiltonian ([] ++ ⟨[], 3⟩ :: exampleHamiltonian) ⟨[0, 1], 5⟩ 10 :=
  claim_C5_amended_constant_kept [] exampleHamiltonian ⟨[0, 1], 5⟩ 10 3
    (by simp) (by decide) (by simp)

/-- C8: for every list of reduced bit solutions and every variable map with
in-range surviving indices, back-mapping yields one output per reduced
solution, of length equal to the number of original variables, whose bit at
each original position equals the reduced solution's bit at that variable's
surviving index, complemented exactly when the stored sign is -1, in
original-variable order. -/
theorem claim_C8_backmap_pointwise (reduced_solutions : List (List Nat))
    (qubit_map : List (Nat × Int))
    (hin : ∀ p ∈ qubit_map, ∀ r ∈ reduced_solutions, p.1 < r.length)
    (hbits : ∀ r ∈ reduced_solutions, ∀ x ∈ r, x = 0 ∨ x = 1) :
    (map_reduced_solutions_to_original_solutions reduced_solutions qubit_map).length =
      reduced_solutions.length ∧
    ∀ (k : Nat) (r : List Nat), reduced_solutions[k]? = some r →
      ∃ o : List Nat,
        (map_reduced_solutions_to_original_solutions reduced_solutions qubit_map)[k]? =
          some o ∧
        o.length = qubit_map.length ∧
        ∀ (i : Nat) (p : Nat × Int), qubit_map[i]? = some p →
          o[i]? = some (if p.2 = -1 then 1 - r.getD p.1 0 else r.getD p.1 0) := by
  refine ⟨by simp [map_reduced_solutions_to_original_solutions], ?_⟩
  intro k r hk
  have hrmem : r ∈ reduced_solutions := List.getElem?_mem hk
  refine ⟨qubit_map.map (fun p => flip_if_negative p.2 (r.getD p.1 0)), ?_, by simp, ?_⟩
  · simp [map_reduced_solutions_to_original_solutions, List.getElem?_map, hk]
  · intro i p hp
    have hlen : p.1 < r.length := hin p (List.getElem?_mem hp) r hrmem
    have hb : r[p.1]?.getD 0 = 0 ∨ r[p.1]?.getD 0 = 1 := by
      rw [List.getElem?_eq_getElem hlen, Option.getD_some]
      exact hbits r hrmem _ (List.getElem_mem hlen)
    rcases hb with h0 | h1
    · simp [List.getElem?_map, hp, flip_if_negative, h0]
    · simp [List.getElem?_map, hp, flip_if_negative, h1]

/-- Witness for C8 at two reduced two-bit solutions and a three-variable
map with one negative sign. -/
theorem claim_C8_backmap_pointwise_witness :
    (map_reduced_solutions_to_original_solutions [[0, 1], [1, 0]]
        [(1, 1), (1, 1), (0, -1)]).length = ([[0, 1], [1, 0]] : List (List Nat)).length ∧
    ∀ (k : Nat) (r : List Nat), ([[0, 1], [1, 0]] : List (List Nat))[k]? = some r →
      ∃ o : List Nat,
        (map_reduced_solutions_to_original_solutions [[0, 1], [1, 0]]
            [(1, 1), (1, 1), (0, -1)])[k]? = some o ∧
        o.length = ([(1, 1), (1, 1), (0, -1)] : List (Nat × Int)).length ∧
        ∀ (i : Nat) (p : Nat × Int),
          ([(1, 1), (1, 1), (0, -1)] : List (Nat × Int))[i]? = some p →
          o[i]? = some (if p.2 = -1 then 1 - r.getD p.1 0 else r.getD p.1 0) :=
  claim_C8_backmap_pointwise [[0, 1], [1, 0]] [(1, 1), (1, 1), (0, -1)]
    (by decide) (by decide)

/-- C7 counterexample: on the Hamiltonian `3 + 1*Z0Z1` with an evaluation
function that is 0 on every term, the scorer returns the CONSTANT term 3
(the initial `terms[0]` default, never overwritten since no strict
improvement over 0.0 occurs), refuting that a non-constant term is always
returned and that constant terms are never selected. -/
theorem claim_C7_counterexample :
    find_term_with_strongest_correlation [⟨[], 3⟩, ⟨[0, 1], 1⟩] (fun _ => 0) =
      some (⟨[], 3⟩, 0) ∧
    (⟨[], (3 : ℚ)⟩ : PauliTerm).is_constant = true ∧
    (⟨[0, 1], (1 : ℚ)⟩ : PauliTerm).is_constant = false := by
  refine ⟨?_, rfl, rfl⟩
  norm_num [find_term_with_strongest_correlation, scorer_step, PauliTerm.is_constant]

theorem scorer_fold_invariant (f : PauliTerm → ℚ) :
    ∀ (L : List PauliTerm) (acc : PauliTerm × ℚ),
      (∀ u ∈ L, u.is_constant = false → |f u| ≤ |(L.foldl (scorer_step f) acc).2|) ∧
      |acc.2| ≤ |(L.foldl (scorer_step f) acc).2| ∧
      (L.foldl (scorer_step f) acc = acc ∨
        ∃ L1 L2, L = L1 ++ (L.foldl (scorer_step f) acc).1 :: L2 ∧
          (L.foldl (scorer_step f) acc).1.is_constant = false ∧
          (L.foldl (scorer_step f) acc).2 = f (L.foldl (scorer_step f) acc).1 ∧
          |acc.2| < |(L.foldl (scorer_step f) acc).2| ∧
          ∀ u ∈ L1, u.is_constant = false →
            |f u| < |(L.foldl (scorer_step f) acc).2|) := by
  intro L
  induction L with
  | nil =>
    intro acc
    exact ⟨by simp, le_refl _, Or.inl rfl⟩
  | cons x xs ih =>
    intro acc
    by_cases hxc : x.is_constant = false
    · by_cases hgt : |f x| > |acc.2|
      · -- the step updates the accumulator to (x, f x)
        have hacc' : scorer_step f acc x = (x, f x) := by
          simp [scorer_step, hxc, hgt]
        rw [List.foldl_cons, hacc']
        obtain ⟨ih1, ih2, ih3⟩ := ih (x, f x)
        refine ⟨?_, ?_, ?_⟩
        · intro u hu hunc
          rcases List.mem_cons.1 hu with rfl | hu'
          · exact ih2
          · exact ih1 u hu' hunc
        · exact le_of_lt (lt_of_lt_of_le hgt ih2)
        · rcases ih3 with heq | ⟨L1, L2, hsplit, hnc, hval, hlt, hL1⟩
          · refine Or.inr ⟨[], xs, by simp [heq], by simp [heq, hxc], by simp [heq],
              by simpa [heq] using hgt, by simp⟩
          · refine Or.inr ⟨x :: L1, L2, ?_, hnc, hval, lt_trans hgt hlt, ?_⟩
            · rw [List.cons_append, ← hsplit]
            · intro u hu hunc
              rcases List.mem_cons.1 hu with rfl | hu'
              · exact hlt
              · exact hL1 u hu' hunc
      · -- no strict improvement: the accumulator is unchanged
        have hacc' : scorer_step f acc x = acc := by
          simp [scorer_step, hxc, hgt]
        rw [List.foldl_cons, hacc']
        obtain ⟨ih1, ih2, ih3⟩ := ih acc
        refine ⟨?_, ih2, ?_⟩
        · intro u hu hunc
          rcases List.mem_cons.1 hu with rfl | hu'
          · exact le_trans (le_of_not_lt hgt) ih2
          · exact ih1 u hu' hunc
        · rcases ih3 with heq | ⟨L1, L2, hsplit, hnc, hval, hlt, hL1⟩
          · exact Or.inl heq
          · refine Or.inr ⟨x :: L1, L2, ?_, hnc, hval, hlt, ?_⟩
            · rw [List.cons_append, ← hsplit]
            · intro u hu hunc
              rcases List.mem_cons.1 hu with rfl | hu'
              · exact lt_of_le_of_lt (le_of_not_lt hgt) hlt
              · exact hL1 u hu' hunc
    · -- constant term: skipped
      have hacc' : scorer_step f acc x = acc := by
        simp [scorer_step, hxc]
      rw [List.foldl_cons, hacc']
      obtain ⟨ih1, ih2, ih3⟩ := ih acc
      refine ⟨?_, ih2, ?_⟩
      · intro u hu hunc
        rcases List.mem_cons.1 hu with rfl | hu'
        · exact absurd hunc hxc
        · exact ih1 u hu' hunc
      · rcases ih3 with heq | ⟨L1, L2, hsplit, hnc, hval, hlt, hL1⟩
        · exact Or.inl heq
        · refine Or.inr ⟨x :: L1, L2, ?_, hnc, hval, hlt, ?_⟩
          · rw [List.cons_append, ← hsplit]
          · intro u hu hunc
            rcases List.mem_cons.1 hu with rfl | hu'
            · exact absurd hunc hxc
            · exact hL1 u hu' hunc

/-- C7 amended: for every Hamiltonian and every per-term evaluation function
such that at least one non-constant term has nonzero expectation value, the
scorer returns a non-constant term whose absolute expectation value is
maximal among all non-constant terms — the first such term in iteration
order (every earlier non-constant term evaluates strictly smaller in
absolute value) — together with that term's signed expectation value. -/
theorem claim_C7_amended_scorer_spec (hamiltonian : List PauliTerm)
    (f : PauliTerm → ℚ)
    (hne : ∃ u ∈ hamiltonian, u.is_constant = false ∧ f u ≠ 0) :
    ∃ t e, find_term_with_strongest_correlation hamiltonian f = some (t, e) ∧
      t ∈ hamiltonian ∧ t.is_constant = false ∧ e = f t ∧
      (∀ u ∈ hamiltonian, u.is_constant = false → |f u| ≤ |e|) ∧
      ∃ L1 L2, hamiltonian = L1 ++ t :: L2 ∧
        ∀ u ∈ L1, u.is_constant = false → |f u| < |e| := by
  rcases hne with ⟨u0, hu0mem, hu0nc, hu0ne⟩
  cases hamiltonian with
  | nil => cases hu0mem
  | cons t0 rest =>
    obtain ⟨inv1, inv2, inv3⟩ := scorer_fold_invariant f (t0 :: rest) (t0, (0 : ℚ))
    set r := (t0 :: rest).foldl (scorer_step f) (t0, (0 : ℚ)) with hrdef
    have hpos : 0 < |r.2| :=
      lt_of_lt_of_le (abs_pos.2 hu0ne) (inv1 u0 hu0mem hu0nc)
    rcases inv3 with heq | ⟨L1, L2, hsplit, hnc, hval, hlt, hL1⟩
    · rw [heq] at hpos
      simp at hpos
    · refine ⟨r.1, r.2, ?_, ?_, hnc, hval, inv1, L1, L2, hsplit, hL1⟩
      · rw [Prod.mk.eta, hrdef]
        rfl
      · rw [hsplit]
        exact List.mem_append.2 (Or.inr (List.mem_cons_self _ _))

/-- Witness for the amended C7 at the example Hamiltonian with the constant
evaluation 1: the first term is selected with value 1. -/
theorem claim_C7_amended_scorer_spec_witness :
    ∃ t e, find_term_with_strongest_correlation exampleHamiltonian (fun _ => 1) =
        some (t, e) ∧
      t ∈ exampleHamiltonian ∧ t.is_constant = false ∧ e = 1 ∧
      (∀ u ∈ exampleHamiltonian, u.is_constant = false → |(1 : ℚ)| ≤ |e|) ∧
      ∃ L1 L2, exampleHamiltonian = L1 ++ t :: L2 ∧
        ∀ u ∈ L1, u.is_constant = false → |(1 : ℚ)| < |e| :=
  claim_C7_amended_scorer_spec exampleHamiltonian (fun _ => 1)
    ⟨⟨[0, 1], 5⟩, List.mem_cons_self _ _, rfl, by norm_num⟩

theorem deepcopy_cells_spec :
    ∀ (m : List Nat) (h : Heap (Nat × Int)),
      (deepcopy_cells h m).1.next = h.next + m.length ∧
      (∀ a, a < h.next → (deepcopy_cells h m).1.cells a = h.cells a) ∧
      (∀ a ∈ (deepcopy_cells h m).2, h.next ≤ a) := by
  intro m
  induction m with
  | nil =>
    intro h
    exact ⟨by simp [deepcopy_cells], fun a _ => rfl, by simp [deepcopy_cells]⟩
  | cons x xs ih =>
    intro h
    obtain ⟨ihn, ihc, ihm⟩ := ih ((h.alloc (h.cells x)).1)
    simp only [deepcopy_cells]
    refine ⟨?_, ?_, ?_⟩
    · rw [ihn]
      simp [Heap.alloc]
      omega
    · intro a ha
      rw [ihc a (by simp [Heap.alloc]; omega)]
      have hne : a ≠ h.next := by omega
      simp [Heap.alloc, hne]
    · intro a ha
      rcases List.mem_cons.1 ha with rfl | ha'
      · simp [Heap.alloc]
      · have := ihm a ha'
        simp [Heap.alloc] at this
        omega

theorem update_loop_spec (t : PauliTerm) (e : ℚ) (n0 : Nat) :
    ∀ (l : List Nat) (h : Heap (Nat × Int)), (∀ a ∈ l, n0 ≤ a) →
      (update_qubit_map_loop t e h l).next = h.next ∧
      ∀ b, b < n0 → (update_qubit_map_loop t e h l).cells b = h.cells b := by
  intro l
  induction l with
  | nil => intro h _; exact ⟨rfl, fun b _ => rfl⟩
  | cons x xs ih =>
    intro h hl
    obtain ⟨ihn, ihc⟩ := ih
      (h.write x (get_new_qubit_indice (h.cells x).1 t,
        if (h.cells x).1 = largest_qubit t then (h.cells x).2 * isign e
        else (h.cells x).2))
      (fun a ha => hl a (List.mem_cons_of_mem _ ha))
    refine ⟨?_, ?_⟩
    · simp only [update_qubit_map_loop]
      rw [ihn]
      rfl
    · intro b hb
      simp only [update_qubit_map_loop]
      rw [ihc b hb]
      have hbx : b ≠ x := by
        have := hl x (List.mem_cons_self _ _)
        omega
      simp [Heap.write, hbx]

theorem sum_add_onheap_spec (t : PauliTerm) :
    ∀ (sum : List Nat) (h : Heap PauliTerm),
      (sum_add_onheap h sum t).1.next = h.next + 1 ∧
      (∀ a, a < h.next → (sum_add_onheap h sum t).1.cells a = h.cells a) ∧
      (∀ a ∈ (sum_add_onheap h sum t).2, a ∈ sum ∨ a = h.next) := by
  intro sum
  induction sum with
  | nil =>
    intro h
    refine ⟨rfl, ?_, ?_⟩
    · intro a ha
      have hne : a ≠ h.next := by omega
      simp [sum_add_onheap, Heap.alloc, hne]
    · intro a ha
      simp [sum_add_onheap, Heap.alloc] at ha
      exact Or.inr ha
  | cons b rest ih =>
    intro h
    by_cases hq : (h.cells b).qubits = t.qubits
    · simp only [sum_add_onheap, if_pos hq]
      refine ⟨rfl, ?_, ?_⟩
      · intro a ha
        have hne : a ≠ h.next := by omega
        simp [Heap.alloc, hne]
      · intro a ha
        rcases List.mem_cons.1 ha with rfl | ha'
        · exact Or.inr rfl
        · exact Or.inl (List.mem_cons_of_mem _ ha')
    · obtain ⟨ihn, ihc, ihm⟩ := ih h
      simp only [sum_add_onheap, if_neg hq]
      refine ⟨ihn, ihc, ?_⟩
      intro a ha
      rcases List.mem_cons.1 ha with rfl | ha'
      · exact Or.inl (List.mem_cons_self _ _)
      · rcases ihm a ha' with hin | hfresh
        · exact Or.inl (List.mem_cons_of_mem _ hin)
        · exact Or.inr hfresh

theorem reduced_onheap_fold_spec (tsel : PauliTerm) (e : ℚ) (n0 : Nat) :
    ∀ (ham : List Nat) (acc : Heap PauliTerm × List Nat),
      n0 ≤ acc.1.next → (∀ a ∈ acc.2, n0 ≤ a ∧ a < acc.1.next) →
      (acc.1.next ≤ (ham.foldl (fun acc a =>
          if acc.1.cells a ≠ tsel
          then sum_add_onheap acc.1 acc.2 (reduce_term (acc.1.cells a) tsel e)
          else acc) acc).1.next) ∧
      (∀ b, b < acc.1.next → (ham.foldl (fun acc a =>
          if acc.1.cells a ≠ tsel
          then sum_add_onheap acc.1 acc.2 (reduce_term (acc.1.cells a) tsel e)
          else acc) acc).1.cells b = acc.1.cells b) ∧
      (∀ a ∈ (ham.foldl (fun acc a =>
          if acc.1.cells a ≠ tsel
          then sum_add_onheap acc.1 acc.2 (reduce_term (acc.1.cells a) tsel e)
          else acc) acc).2, n0 ≤ a ∧ a < (ham.foldl (fun acc a =>
          if acc.1.cells a ≠ tsel
          then sum_add_onheap acc.1 acc.2 (reduce_term (acc.1.cells a) tsel e)
          else acc) acc).1.next) := by
  intro ham
  induction ham with
  | nil =>
    intro acc hbase hs
    exact ⟨le_refl _, fun b _ => rfl, hs⟩
  | cons x xs ih =>
    intro acc hbase hs
    rw [List.foldl_cons]
    split_ifs with hx
    · obtain ⟨sn, sc, sm⟩ :=
        sum_add_onheap_spec (reduce_term (acc.1.cells x) tsel e) acc.2 acc.1
      have hbase' : n0 ≤ (sum_add_onheap acc.1 acc.2
          (reduce_term (acc.1.cells x) tsel e)).1.next := by
        rw [sn]; omega
      have hs' : ∀ a ∈ (sum_add_onheap acc.1 acc.2
          (reduce_term (acc.1.cells x) tsel e)).2, n0 ≤ a ∧
          a < (sum_add_onheap acc.1 acc.2
            (reduce_term (acc.1.cells x) tsel e)).1.next := by
        intro a ha
        rw [sn]
        rcases sm a ha with hin | rfl
        · have := hs a hin
          omega
        · omega
      obtain ⟨ihn, ihc, ihm⟩ := ih _ hbase' hs'
      refine ⟨?_, ?_, ihm⟩
      · calc acc.1.next ≤ acc.1.next + 1 := by omega
          _ = _ := sn.symm
          _ ≤ _ := ihn
      · intro b hb
        rw [ihc b (by rw [sn]; omega), sc b hb]
    · exact ih acc hbase hs

/-- C10: the per-level state transformers are free of side effects on their
inputs.  At the heap level: the qubit-map update deep-copies the map and
mutates only the freshly allocated cells, so every cell of the input map is
left exactly as it was and the returned map consists of fresh addresses
disjoint from the input's; the Hamiltonian reducer only reads the input term
objects and allocates new ones, so every existing term cell is unchanged and
the returned sum consists of fresh addresses disjoint from the input
Hamiltonian's. -/
theorem claim_C10_no_side_effects (h : Heap (Nat × Int)) (qubit_map : List Nat)
    (t : PauliTerm) (e : ℚ) (th : Heap PauliTerm) (ham : List Nat) (taddr : Nat)
    (hq : ∀ a ∈ qubit_map, a < h.next) (hh : ∀ a ∈ ham, a < th.next) :
    (∀ a, a < h.next →
      (update_qubit_map_onheap h qubit_map t e).1.cells a = h.cells a) ∧
    (∀ a ∈ (update_qubit_map_onheap h qubit_map t e).2, a ∉ qubit_map) ∧
    (∀ a, a < th.next →
      (create_reduced_onheap th ham taddr e).1.cells a = th.cells a) ∧
    (∀ a ∈ (create_reduced_onheap th ham taddr e).2, a ∉ ham) := by
  obtain ⟨dn, dc, dm⟩ := deepcopy_cells_spec qubit_map h
  obtain ⟨ln, lc⟩ :=
    update_loop_spec t e h.next (deepcopy_cells h qubit_map).2
      (deepcopy_cells h qubit_map).1 dm
  obtain ⟨rn, rc, rm⟩ :=
    reduced_onheap_fold_spec (th.cells taddr) e th.next ham (th, [])
      (le_refl _) (by simp)
  refine ⟨?_, ?_, ?_, ?_⟩
  · intro a ha
    simp only [update_qubit_map_onheap]
    rw [lc a ha, dc a ha]
  · intro a ha hmem
    simp only [update_qubit_map_onheap] at ha
    exact absurd (hq a hmem) (not_lt.2 (dm a ha))
  · intro a ha
    simp only [create_reduced_onheap]
    exact rc a ha
  · intro a ha hmem
    simp only [create_reduced_onheap] at ha
    exact absurd (hh a hmem) (not_lt.2 (rm a ha).1)

/-- Witness for C10 at a two-cell qubit-map heap and a two-term Hamiltonian
heap, reducing by the term at address 0. -/
theorem claim_C10_no_side_effects_witness :
    (∀ a, a < (⟨fun _ => (0, 1), 2⟩ : Heap (Nat × Int)).next →
      (update_qubit_map_onheap ⟨fun _ => (0, 1), 2⟩ [0, 1] ⟨[0, 1], 5⟩ 10).1.cells a =
        (⟨fun _ => (0, 1), 2⟩ : Heap (Nat × Int)).cells a) ∧
    (∀ a ∈ (update_qubit_map_onheap ⟨fun _ => (0, 1), 2⟩ [0, 1] ⟨[0, 1], 5⟩ 10).2,
      a ∉ ([0, 1] : List Nat)) ∧
    (∀ a, a < (⟨fun _ => ⟨[0, 1], 5⟩, 2⟩ : Heap PauliTerm).next →
      (create_reduced_onheap ⟨fun _ => ⟨[0, 1], 5⟩, 2⟩ [0, 1] 0 10).1.cells a =
        (⟨fun _ => ⟨[0, 1], 5⟩, 2⟩ : Heap PauliTerm).cells a) ∧
    (∀ a ∈ (create_reduced_onheap ⟨fun _ => ⟨[0, 1], 5⟩, 2⟩ [0, 1] 0 10).2,
      a ∉ ([0, 1] : List Nat)) :=
  claim_C10_no_side_effects ⟨fun _ => (0, 1), 2⟩ [0, 1] ⟨[0, 1], 5⟩ 10
    ⟨fun _ => ⟨[0, 1], 5⟩, 2⟩ [0, 1] 0 (by decide) (by decide)
